import Mathlib

/-!
# Verification of the Alpha trading system core

Shallow embedding, in Lean 4, of the consensus merger (`src/ai_decision.py`)
and the order execution engine (`src/trading_executor.py`) of the Alpha
repository, together with proofs and refutations of the frozen claims about
them.

Modelling conventions:
* Python floats are modelled as rationals (`ℚ`); `float(f"{v:.pf}")`
  (fixed-point formatting followed by re-parsing) is modelled as decimal
  round-half-even at `p` places.
* Python dicts carrying trade data are modelled as insertion-ordered
  association lists (`PyDict`); assignment updates the first matching key in
  place or appends a fresh key at the end, exactly as a Python dict does.
* Network effects are modelled by oracles: an `Exchange` structure answers
  every exchange query the executor can make, and every theorem about the
  executor quantifies over all oracles.  The calls actually issued are
  collected in an explicit `ExchangeCall` trace.
* `str.upper()` is modelled by `Char.toUpper` mapped over the string, which
  agrees with Python on the ASCII symbols used by the system.
-/

/-- A Python value as it appears in the trade dictionaries: a string, a
number (modelled as `ℚ`) or a boolean. -/
inductive PyVal where
  | s (v : String)
  | n (v : ℚ)
  | b (v : Bool)
deriving DecidableEq, Repr

/-- A Python dict with string keys, modelled as an insertion-ordered
association list. -/
abbrev PyDict := List (String × PyVal)

/-- `d.get(k)` / `d[k]`: the value stored at the first occurrence of key
`k`, if any. -/
def dget : PyDict → String → Option PyVal
  | [], _ => none
  | (k', v') :: rest, k => if k' = k then some v' else dget rest k

/-- `d[k] = v`: update the first occurrence of `k` in place, or append the
new key at the end, as Python dict assignment does. -/
def dset : PyDict → String → PyVal → PyDict
  | [], k, v => [(k, v)]
  | (k', v') :: rest, k, v =>
    if k' = k then (k, v) :: rest else (k', v') :: dset rest k v

/-- `d.get(k, dflt)` in a position where the Python code immediately uses
the value as a string.  A stored non-string value would raise in Python;
such dicts do not occur in the verified scenarios. -/
def dgetS (d : PyDict) (k dflt : String) : String :=
  match dget d k with
  | some (PyVal.s v) => v
  | _ => dflt

/-- `d.get(k, dflt)` in a position where the Python code immediately uses
the value as a number. -/
def dgetN (d : PyDict) (k : String) (dflt : ℚ) : ℚ :=
  match dget d k with
  | some (PyVal.n v) => v
  | _ => dflt

/-- Python `str.upper()` on the ASCII strings used by the system, applied
characterwise over the string's character list. -/
def upperS (s : String) : String := String.mk (s.data.map Char.toUpper)

/-- Python `int(x)` on a number: truncation toward zero. -/
def pyInt (x : ℚ) : ℤ := if 0 ≤ x then ⌊x⌋ else ⌈x⌉

@[simp] theorem dget_dset_self (d : PyDict) (k : String) (v : PyVal) :
    dget (dset d k v) k = some v := by
  induction d with
  | nil => simp [dget, dset]
  | cons p rest ih =>
    by_cases h : p.1 = k <;> simp [dget, dset, h, ih]

theorem dget_dset_ne (d : PyDict) (k k' : String) (v : PyVal) (h : k' ≠ k) :
    dget (dset d k v) k' = dget d k' := by
  have hne : ¬(k = k') := fun hh => h hh.symm
  induction d with
  | nil => simp [dget, dset, hne]
  | cons p rest ih =>
    obtain ⟨k₀, v₀⟩ := p
    by_cases hk : k₀ = k
    · subst hk
      simp [dget, dset, hne]
    · by_cases hk' : k₀ = k' <;> simp [dget, dset, hk, hk', h, ih]

theorem dgetS_dset_ne (d : PyDict) (k k' dflt : String) (v : PyVal) (h : k' ≠ k) :
    dgetS (dset d k v) k' dflt = dgetS d k' dflt := by
  simp [dgetS, dget_dset_ne d k k' v h]

theorem dgetN_dset_ne (d : PyDict) (k k' : String) (dflt : ℚ) (v : PyVal) (h : k' ≠ k) :
    dgetN (dset d k v) k' dflt = dgetN d k' dflt := by
  simp [dgetN, dget_dset_ne d k k' v h]

/-! ## Consensus merger (`src/ai_decision.py`) -/

/-- One AI's parsed answer, as consumed by `merge_decisions`: its attached
`ai_name` and its `trades` list.  `merge_decisions` reads no other key of
the decision dict. -/
structure AIDecision where
  aiName : String
  trades : List PyDict
deriving DecidableEq, Repr

/-- `AIDecision.normalize_trade_action` (src/ai_decision.py:265-279): the
normalized `(action, symbol, direction)` triple, with the direction blanked
out for `HOLD`. -/
def normalizeTradeAction (t : PyDict) : String × String × String :=
  let action := upperS (dgetS t "action" "")
  let symbol := upperS (dgetS t "symbol" "")
  let direction := if action = "HOLD" then "" else upperS (dgetS t "direction" "")
  (action, symbol, direction)

/-- The uppercased symbol a trade is grouped under
(`trade.get('symbol', '').upper()`). -/
def symKey (t : PyDict) : String := upperS (dgetS t "symbol" "")

/-- The tagging loop of `merge_decisions` (src/ai_decision.py:299-306):
every input trade dict is mutated in place with `trade['from_ai'] = ai_name`
and appended to `all_trades`. -/
def taggedTrades (all : List AIDecision) : List PyDict :=
  (all.map (fun d => d.trades.map (fun t => dset t "from_ai" (PyVal.s d.aiName)))).flatten

/-- Insert a trade into the insertion-ordered symbol grouping
(`trades_by_symbol`, src/ai_decision.py:309-314). -/
def groupInsert : List (String × List PyDict) → String → PyDict → List (String × List PyDict)
  | [], sym, t => [(sym, [t])]
  | (s, ts) :: rest, sym, t =>
    if s = sym then (s, ts ++ [t]) :: rest else (s, ts) :: groupInsert rest sym t

/-- `trades_by_symbol`: group the tagged trades by uppercased symbol,
preserving first-appearance order of the symbols and the order of trades
within each group. -/
def groupBySymbol (ts : List PyDict) : List (String × List PyDict) :=
  ts.foldl (fun gs t => groupInsert gs (symKey t) t) []

/-- Building the emitted consensus trade for a unanimous group
(src/ai_decision.py:331-342): a copy of the first trade with `confidence`
replaced by the arithmetic mean (per-trade default 0.5), plus
`ai_consensus` (group size) and `total_ais` (configured model count). -/
def emitConsensus (totalAIs : ℕ) (g : List PyDict) (t₀ : PyDict) : PyDict :=
  let conf := (g.map (fun t => dgetN t "confidence" (1/2))).sum / (g.length : ℚ)
  dset (dset (dset t₀ "confidence" (PyVal.n conf))
      "ai_consensus" (PyVal.n (g.length : ℚ)))
    "total_ais" (PyVal.n (totalAIs : ℚ))

/-- The per-group consensus loop (src/ai_decision.py:319-351): a group is
emitted iff the set of distinct normalized triples of its members has
exactly one element (`len(set(normalized_actions)) == 1`); otherwise the
symbol is skipped. -/
def mergeGroups (totalAIs : ℕ) : List (String × List PyDict) → List PyDict
  | [] => []
  | (_, g) :: rest =>
    (match g with
     | [] => []  -- unreachable: every group built by groupInsert is nonempty
     | t₀ :: _ =>
       if (g.map normalizeTradeAction).toFinset.card = 1 then
         [emitConsensus totalAIs g t₀]
       else []) ++ mergeGroups totalAIs rest

/-- `AIDecision.merge_decisions` (src/ai_decision.py:281-353), return value.
Zero decisions give no trades; a single decision's trades pass through
unchanged; two or more are tagged, grouped by symbol and emitted only on
unanimity.  `totalAIs` is `len(self.ai_models)`. -/
def mergeDecisions (totalAIs : ℕ) (all : List AIDecision) : List PyDict :=
  match all with
  | [] => []
  | [d] => d.trades
  | _ => mergeGroups totalAIs (groupBySymbol (taggedTrades all))

/-- The state of the caller's decision objects after `merge_decisions`
returns.  The only mutation the function performs on its input is the
in-place tag `trade['from_ai'] = ai_name` (src/ai_decision.py:305), executed
only on the multi-decision path. -/
def mergePostDecisions (all : List AIDecision) : List AIDecision :=
  match all with
  | [] => []
  | [d] => [d]
  | _ => all.map (fun d =>
      { d with trades := d.trades.map (fun t => dset t "from_ai" (PyVal.s d.aiName)) })

/-! ## Instrument rules and normalization (`src/trading_executor.py:44-164`) -/

/-- One quantity filter (`LOT_SIZE` or `MARKET_LOT_SIZE`): its parsed
`minQty` and `stepSize` fields. -/
structure LotFilter where
  minQty : ℚ
  stepSize : ℚ
deriving DecidableEq, Repr

/-- The cached, parsed result of `_get_symbol_info` for one instrument: the
filters and precisions `_normalize_quantity` / `_normalize_price` read.
A missing filter is `none` (the code then falls back to zeros). -/
structure SymbolInfo where
  lotSize : Option LotFilter
  marketLotSize : Option LotFilter
  /-- `MIN_NOTIONAL.notional` or `NOTIONAL.minNotional`; `0` when the filter
  is absent or unparsable. -/
  minNotional : ℚ
  /-- `PRICE_FILTER.tickSize`; `0` when absent. -/
  tickSize : ℚ
  /-- `quantityPrecision` when it is an int, else `none`. -/
  quantityPrecision : Option ℕ
  /-- `pricePrecision` when it is an int, else `none`. -/
  pricePrecision : Option ℕ
deriving DecidableEq, Repr

/-- `TradingExecutor._floor_to_step` (src/trading_executor.py:69-75). -/
def floorToStep (value step : ℚ) : ℚ :=
  if step ≤ 0 then value else (⌊value / step⌋ : ℚ) * step

/-- Decimal round half to even of a rational, the rounding applied by
Python's fixed-point formatting at the digit being dropped. -/
def roundHalfEven (x : ℚ) : ℤ :=
  let n := ⌊x⌋
  if x - (n : ℚ) < 1/2 then n
  else if (1 : ℚ)/2 < x - (n : ℚ) then n + 1
  else if n % 2 = 0 then n else n + 1

/-- `TradingExecutor._round_to_precision` (src/trading_executor.py:77-82):
`float(f"{value:.precisionf}")`, modelled as decimal round half to even at
`precision` places. -/
def roundToPrecision (value : ℚ) (precision : ℕ) : ℚ :=
  (roundHalfEven (value * 10 ^ precision) : ℚ) / 10 ^ precision

/-- The quantity filter `_normalize_quantity` selects
(src/trading_executor.py:97-102): `MARKET_LOT_SIZE` for a market order when
the exchange defines one, otherwise `LOT_SIZE`. -/
def selectedLot (i : SymbolInfo) (orderType : String) : Option LotFilter :=
  if upperS orderType = "MARKET" ∧ i.marketLotSize.isSome then i.marketLotSize
  else i.lotSize

/-- Step flooring stage (src/trading_executor.py:106-108); the guard
`if step_size and step_size > 0` collapses to `0 < step`. -/
def applyStep (qty step : ℚ) : ℚ :=
  if 0 < step then floorToStep qty step else qty

/-- Minimum-quantity stage (src/trading_executor.py:110-112); the guard
`if min_qty and qty < min_qty` is `min_qty ≠ 0 ∧ qty < min_qty`. -/
def applyMinQty (qty minQty : ℚ) : ℚ :=
  if minQty ≠ 0 ∧ qty < minQty then minQty else qty

/-- Minimum-notional stage (src/trading_executor.py:114-132): when the
notional `qty × price` is below the minimum, raise the quantity to the
target `ceil(min_notional / price / step) × step` (only ceiled to the step
when the step is positive), never lowering it below its current value. -/
def applyMinNotional (qty price minNotional step : ℚ) : ℚ :=
  let notional := if price ≠ 0 then qty * price else 0
  if minNotional ≠ 0 ∧ notional < minNotional ∧ price ≠ 0 then
    let target := minNotional / price
    let target := if 0 < step then (⌈target / step⌉ : ℚ) * step else target
    max qty target
  else qty

/-- Precision stage (src/trading_executor.py:134-137). -/
def applyPrecision (qty : ℚ) : Option ℕ → ℚ
  | some p => roundToPrecision qty p
  | none => qty

/-- `TradingExecutor._normalize_quantity` (src/trading_executor.py:84-143).
`info = none` models a failed rule fetch, in which case the raw quantity is
returned unchanged. -/
def normalizeQuantity (info : Option SymbolInfo) (qty price : ℚ) (orderType : String) : ℚ :=
  match info with
  | none => qty
  | some i =>
    let lot := selectedLot i orderType
    let minQty := match lot with | some l => l.minQty | none => 0
    let step := match lot with | some l => l.stepSize | none => 0
    applyPrecision
      (applyMinNotional (applyMinQty (applyStep qty step) minQty) price i.minNotional step)
      i.quantityPrecision

/-- `TradingExecutor._normalize_price` (src/trading_executor.py:145-164). -/
def normalizePrice (info : Option SymbolInfo) (price : ℚ) : ℚ :=
  match info with
  | none => price
  | some i =>
    let p1 := if 0 < i.tickSize then floorToStep price i.tickSize else price
    applyPrecision p1 i.pricePrecision

/-! ## Position ledger and exchange oracle (`src/trading_executor.py`) -/

/-- One entry of `self.active_positions` (src/trading_executor.py:486-493). -/
structure Position where
  direction : String
  quantity : ℚ
  entry_price : ℚ
  stop_loss : ℚ
  leverage : ℤ
  stop_order_id : Option ℤ
deriving DecidableEq, Repr

/-- The `active_positions` dict: instrument symbol → position, insertion
ordered like a Python dict. -/
abbrev Positions := List (String × Position)

/-- `symbol in active_positions` / `active_positions[symbol]`. -/
def posGet : Positions → String → Option Position
  | [], _ => none
  | (s, p) :: rest, sym => if s = sym then some p else posGet rest sym

/-- `active_positions[symbol] = p`. -/
def posSet : Positions → String → Position → Positions
  | [], sym, p => [(sym, p)]
  | (s, q) :: rest, sym, p =>
    if s = sym then (sym, p) :: rest else (s, q) :: posSet rest sym p

/-- `del active_positions[symbol]`. -/
def posErase : Positions → String → Positions
  | [], _ => []
  | (s, p) :: rest, sym => if s = sym then rest else (s, p) :: posErase rest sym

/-- One exchange interaction actually issued by the executor during a cycle.
Theorems use this trace to state that a skipped decision performs no
exchange call. -/
inductive ExchangeCall where
  | setLeverage (symbol : String) (leverage : ℤ)
  | marketOrder (symbol side : String) (qty : ℚ)
  | stopOrder (symbol side : String) (stopPrice : ℚ)
  | cancelOrder (symbol : String) (orderId : ℤ)
  | queryOpenOrders (symbol : String)
deriving DecidableEq, Repr

/-- The exchange, as an oracle answering every query the executor can make.
Each field abstracts one HTTP interaction of `src/trading_executor.py`; a
`none` / `false` answer covers transport failure and error-coded rejection
alike, which the executor's call sites collapse into the same branch. -/
structure Exchange where
  /-- `_get_symbol_info` (cached `exchangeInfo` fetch); `none` = unknown
  instrument or failed fetch. -/
  symbolInfo : String → Option SymbolInfo
  /-- `/fapi/v1/ticker/price` fetch inside `place_market_order`; `none`
  models the exception path, after which the code uses price `0`. -/
  tickerPrice : String → Option ℚ
  /-- Outcome of the signed `/fapi/v1/leverage` call. -/
  leverageOk : String → ℤ → Bool
  /-- Outcome of a signed MARKET order: the `orderId` on success. -/
  marketOrderId : String → String → ℚ → Option ℤ
  /-- Outcome of a signed STOP_MARKET order: the `orderId` on success. -/
  stopOrderId : String → String → ℚ → Option ℤ
  /-- Outcome of a signed order cancellation. -/
  cancelOk : String → ℤ → Bool
  /-- `openOrders` query, already filtered to `STOP_MARKET`/`STOP` order
  ids; `none` models an error or empty response (treated as success). -/
  openStopOrders : String → Option (List ℤ)

/-- `TradingExecutor.set_leverage` (src/trading_executor.py:274-301): an
unknown instrument fails without any signed call. -/
def setLeverageCall (ex : Exchange) (symbol : String) (leverage : ℤ) :
    Bool × List ExchangeCall :=
  match ex.symbolInfo symbol with
  | none => (false, [])
  | some _ => (ex.leverageOk symbol leverage, [ExchangeCall.setLeverage symbol leverage])

/-- `TradingExecutor.place_market_order` (src/trading_executor.py:303-351):
validate the instrument, fetch a reference price, normalize the quantity
for a market order, refuse a non-positive normalized quantity, then place
the order.  Returns the order id on success. -/
def placeMarketOrderCall (ex : Exchange) (symbol side : String) (quantity : ℚ) :
    Option ℤ × List ExchangeCall :=
  match ex.symbolInfo symbol with
  | none => (none, [])
  | some info =>
    let price := match ex.tickerPrice symbol with | some p => p | none => 0
    let normQty := normalizeQuantity (some info) quantity price "MARKET"
    if normQty ≤ 0 then (none, [])
    else
      (ex.marketOrderId symbol side normQty, [ExchangeCall.marketOrder symbol side normQty])

/-- `TradingExecutor.place_stop_loss_order` (src/trading_executor.py:353-385):
normalize the stop price and place a `STOP_MARKET` close-position order.
The `quantity` argument is accepted but, as in the source, never sent. -/
def placeStopLossOrderCall (ex : Exchange) (symbol side : String)
    (_quantity stopPrice : ℚ) : Option ℤ × List ExchangeCall :=
  let normPrice := normalizePrice (ex.symbolInfo symbol) stopPrice
  (ex.stopOrderId symbol side normPrice, [ExchangeCall.stopOrder symbol side normPrice])

/-- `TradingExecutor.cancel_order` (src/trading_executor.py:387-410). -/
def cancelOrderCall (ex : Exchange) (symbol : String) (orderId : ℤ) :
    Bool × List ExchangeCall :=
  (ex.cancelOk symbol orderId, [ExchangeCall.cancelOrder symbol orderId])

/-- `TradingExecutor.cancel_all_stop_loss_orders`
(src/trading_executor.py:412-438): list open orders, cancel every stop
order among them; an error or empty listing is treated as success. -/
def cancelAllStopLossOrdersCall (ex : Exchange) (symbol : String) :
    Bool × List ExchangeCall :=
  match ex.openStopOrders symbol with
  | none => (true, [ExchangeCall.queryOpenOrders symbol])
  | some ids =>
    let cancels := ids.map (fun oid => cancelOrderCall ex symbol oid)
    (cancels.all (fun c => c.1),
     ExchangeCall.queryOpenOrders symbol :: (cancels.map (fun c => c.2)).flatten)

/-! ## The execution engine (`src/trading_executor.py:440-627`) -/

/-- `TradingExecutor.execute_open_position` (src/trading_executor.py:440-495).
Returns success, the updated ledger and the exchange calls issued. -/
def executeOpenPosition (ex : Exchange) (cash : ℚ) (st : Positions) (trade : PyDict) :
    Bool × Positions × List ExchangeCall :=
  let symbol := dgetS trade "symbol" ""
  let direction := dgetS trade "direction" ""
  let leverage := pyInt (dgetN trade "leverage" 0)
  let psp := dgetN trade "position_size_percent" 0
  let stopLoss := dgetN trade "stop_loss" 0
  let (levOk, ev1) := setLeverageCall ex symbol leverage
  if !levOk then (false, st, ev1)
  else
    let positionValue := cash * psp * (leverage : ℚ)
    let entryPrice := dgetN trade "entry_price_target" 0
    if entryPrice ≤ 0 then (false, st, ev1)
    else
      let quantity := positionValue / entryPrice
      let side := if direction = "LONG" then "BUY" else "SELL"
      match placeMarketOrderCall ex symbol side quantity with
      | (none, ev2) =>
        -- defensive cleanup of stray protective orders, then fail
        let (_, ev3) := cancelAllStopLossOrdersCall ex symbol
        (false, st, ev1 ++ ev2 ++ ev3)
      | (some _, ev2) =>
        let stopSide := if direction = "LONG" then "SELL" else "BUY"
        let (stopOrder, ev3) := placeStopLossOrderCall ex symbol stopSide quantity stopLoss
        let pos : Position :=
          { direction := direction, quantity := quantity, entry_price := entryPrice,
            stop_loss := stopLoss, leverage := leverage, stop_order_id := stopOrder }
        (true, posSet st symbol pos, ev1 ++ ev2 ++ ev3)

/-- `TradingExecutor.execute_close_position` (src/trading_executor.py:497-532). -/
def executeClosePosition (ex : Exchange) (st : Positions) (trade : PyDict) :
    Bool × Positions × List ExchangeCall :=
  let symbol := dgetS trade "symbol" ""
  match posGet st symbol with
  | none => (false, st, [])
  | some pos =>
    let ev1 := match pos.stop_order_id with
      | some oid => (cancelOrderCall ex symbol oid).2
      | none => []
    let side := if pos.direction = "LONG" then "SELL" else "BUY"
    match placeMarketOrderCall ex symbol side pos.quantity with
    | (some _, ev2) => (true, posErase st symbol, ev1 ++ ev2)
    | (none, ev2) => (false, st, ev1 ++ ev2)

/-- The reference price of the loss guard
(src/trading_executor.py:574): `trade.get('entry_price_target',
position['entry_price'])`.  A present non-numeric value would raise in
Python and does not occur in the verified scenarios. -/
def closeRefPrice (trade : PyDict) (pos : Position) : ℚ :=
  match dget trade "entry_price_target" with
  | some (PyVal.n v) => v
  | _ => pos.entry_price

/-- The loss-guard test of `execute_trades` (src/trading_executor.py:571-584):
a CLOSE on an instrument with an open position whose close reference price
is adverse to the position's direction. -/
def isLossClose (st : Positions) (trade : PyDict) (action symbol : String) : Bool :=
  if action = "CLOSE" then
    match posGet st symbol with
    | some pos =>
      let current := closeRefPrice trade pos
      decide ((pos.direction = "LONG" ∧ current < pos.entry_price) ∨
              (pos.direction = "SHORT" ∧ pos.entry_price < current))
    | none => false
  else false

/-- One per-instrument entry of `results['details']`. -/
structure Detail where
  symbol : String
  action : String
  status : String
deriving DecidableEq, Repr

/-- The running `results` aggregate of `execute_trades`
(src/trading_executor.py:545-551). -/
structure ExecResults where
  total : ℕ
  executed : ℕ
  skipped_low_confidence : ℕ
  failed : ℕ
  details : List Detail
deriving DecidableEq, Repr

/-- One iteration of the `execute_trades` loop
(src/trading_executor.py:553-625): confidence gate, loss guard, dispatch by
action, then count the outcome.  The accumulator carries the ledger, the
running results and the exchange-call trace. -/
def executeTradeStep (ct : ℚ) (ex : Exchange) (cash : ℚ)
    (acc : Positions × ExecResults × List ExchangeCall) (trade : PyDict) :
    Positions × ExecResults × List ExchangeCall :=
  let (st, res, evs) := acc
  let symbol := dgetS trade "symbol" "UNKNOWN"
  let action := dgetS trade "action" "UNKNOWN"
  let confidence := dgetN trade "confidence" 0
  if confidence < ct then
    (st,
     { res with skipped_low_confidence := res.skipped_low_confidence + 1,
                details := res.details ++ [⟨symbol, action, "skipped_low_confidence"⟩] },
     evs)
  else if isLossClose st trade action symbol then
    (st,
     { res with skipped_low_confidence := res.skipped_low_confidence + 1,
                details := res.details ++ [⟨symbol, action, "skipped_loss_position"⟩] },
     evs)
  else
    let out : Bool × Positions × List ExchangeCall :=
      if action = "OPEN" then executeOpenPosition ex cash st trade
      else if action = "CLOSE" then executeClosePosition ex st trade
      else if action = "HOLD" then (true, st, [])
      else if action = "BP" ∨ action = "SP" then executeOpenPosition ex cash st trade
      else (false, st, [])
    match out with
    | (true, st', newEvs) =>
      (st',
       { res with executed := res.executed + 1,
                  details := res.details ++ [⟨symbol, action, "success"⟩] },
       evs ++ newEvs)
    | (false, st', newEvs) =>
      (st',
       { res with failed := res.failed + 1,
                  details := res.details ++ [⟨symbol, action, "failed"⟩] },
       evs ++ newEvs)

/-- `TradingExecutor.execute_trades` (src/trading_executor.py:534-627).
Returns the final ledger, the summary and the exchange calls issued. -/
def executeTrades (ct : ℚ) (ex : Exchange) (trades : List PyDict) (cash : ℚ)
    (st : Positions) : Positions × ExecResults × List ExchangeCall :=
  trades.foldl (executeTradeStep ct ex cash)
    (st, ⟨trades.length, 0, 0, 0, []⟩, [])

/-- The open-position path of the dispatch (src/trading_executor.py:598-599
and 605-608 both call `execute_open_position`) together with the outcome
counting: what a decision routed to the open path produces. -/
def openPathStep (ex : Exchange) (cash : ℚ) (st : Positions) (res : ExecResults)
    (evs : List ExchangeCall) (trade : PyDict) :
    Positions × ExecResults × List ExchangeCall :=
  let symbol := dgetS trade "symbol" "UNKNOWN"
  let action := dgetS trade "action" "UNKNOWN"
  match executeOpenPosition ex cash st trade with
  | (true, st', newEvs) =>
    (st',
     { res with executed := res.executed + 1,
                details := res.details ++ [⟨symbol, action, "success"⟩] },
     evs ++ newEvs)
  | (false, st', newEvs) =>
    (st',
     { res with failed := res.failed + 1,
                details := res.details ++ [⟨symbol, action, "failed"⟩] },
     evs ++ newEvs)

/-! ## Signed request client (`src/trading_executor.py:166-250`) -/

/-- The credential/signing state of `_send_signed_request`.  `sign` models
`_generate_signature`: the HMAC-SHA256 hex digest of the urlencoded
parameter set, abstracted as an arbitrary function of the parameters. -/
structure SignedClient where
  apiKey : Option String
  apiSecret : Option String
  sign : PyDict → String

/-- What one HTTP attempt of `_send_signed_request` observes.  `ok` is a
2xx response with a decodable JSON body (any body, including one carrying
an exchange error code); `timeout` is `requests.exceptions.Timeout`;
`reqError` is any other `requests.exceptions.RequestException`, including
the `HTTPError` raised by `raise_for_status` on a non-2xx status (`body` is
the last response's decodable body, if any, used on the final attempt);
`otherError` is any other exception. -/
inductive AttemptOutcome where
  | ok (payload : PyDict)
  | timeout
  | reqError (body : Option PyDict) (emsg : String)
  | otherError (emsg : String)
deriving DecidableEq, Repr

/-- The parameter set one attempt actually sends
(src/trading_executor.py:204-207): a fresh copy of the preserved original
parameters, extended with this attempt's own timestamp, then signed. -/
def attemptParams (c : SignedClient) (orig : PyDict) (ts : ℤ) : PyDict :=
  let p := dset orig "timestamp" (PyVal.n (ts : ℚ))
  dset p "signature" (PyVal.s (c.sign p))

/-- `original_params` (src/trading_executor.py:194-197): a copy of the
caller's parameters with a default `recvWindow` of 5000 added if absent. -/
def withRecv (params : PyDict) : PyDict :=
  if (dget params "recvWindow").isSome then params
  else dset params "recvWindow" (PyVal.n 5000)

/-- The retry loop of `_send_signed_request` (src/trading_executor.py:199-250).
`remaining + 1` attempts are still allowed (`remaining = 0` means this is
the last one); `outcomes i` is what attempt `i` observes and `times i` its
`int(time.time() * 1000)`.  Returns the result dict and the parameter sets
sent, in attempt order.  The fixed 2 s `time.sleep` between attempts has no
observable effect in this model. -/
def sendLoop (c : SignedClient) (orig : PyDict) (outcomes : ℕ → AttemptOutcome)
    (times : ℕ → ℤ) : ℕ → ℕ → PyDict × List PyDict
  | _, 0 =>
    -- falling out of the `for` loop; unreachable for a positive attempt budget
    ([("code", PyVal.n (-1)), ("msg", PyVal.s "MAX_RETRIES_EXCEEDED")], [])
  | attempt, remaining + 1 =>
    let rp := attemptParams c orig (times attempt)
    match outcomes attempt with
    | AttemptOutcome.ok d => (d, [rp])
    | AttemptOutcome.timeout =>
      if remaining = 0 then
        ([("code", PyVal.n (-1)), ("msg", PyVal.s "REQUEST_TIMEOUT"),
          ("error", PyVal.s "请求超时")], [rp])
      else
        let next := sendLoop c orig outcomes times (attempt + 1) remaining
        (next.1, rp :: next.2)
    | AttemptOutcome.reqError body emsg =>
      if remaining = 0 then
        (match body with
         | some d => d
         | none => [("code", PyVal.n (-1)), ("msg", PyVal.s "NETWORK_ERROR"),
                    ("error", PyVal.s emsg)], [rp])
      else
        let next := sendLoop c orig outcomes times (attempt + 1) remaining
        (next.1, rp :: next.2)
    | AttemptOutcome.otherError emsg =>
      ([("code", PyVal.n (-1)), ("msg", PyVal.s "UNKNOWN_ERROR"),
        ("error", PyVal.s emsg)], [rp])

/-- `TradingExecutor._send_signed_request` (src/trading_executor.py:188-250),
with `max_retries = 3`.  The executor's position ledger `st` is threaded
through unchanged: the method never reads or writes `active_positions`. -/
def sendSignedRequest (c : SignedClient) (params : PyDict)
    (outcomes : ℕ → AttemptOutcome) (times : ℕ → ℤ) (st : Positions) :
    PyDict × List PyDict × Positions :=
  if c.apiKey.isNone || c.apiSecret.isNone then
    ([("code", PyVal.n (-1)), ("msg", PyVal.s "MISSING_API_CREDENTIALS")], [], st)
  else
    let r := sendLoop c (withRecv params) outcomes times 0 3
    (r.1, r.2, st)

/-! ## Analysis of the consensus merger -/

/-- The symbols, in first-appearance order, of a grouping. -/
def groupKeys (gs : List (String × List PyDict)) : List String := gs.map Prod.fst

theorem groupInsert_keys (gs : List (String × List PyDict)) (sym : String) (t : PyDict) :
    groupKeys (groupInsert gs sym t) =
      if sym ∈ groupKeys gs then groupKeys gs else groupKeys gs ++ [sym] := by
  induction gs with
  | nil => simp [groupKeys, groupInsert]
  | cons p rest ih =>
    obtain ⟨s, ts⟩ := p
    simp only [groupKeys, List.map_cons] at ih ⊢
    by_cases h : s = sym
    · subst h; simp [groupInsert]
    · have hs : ¬(sym = s) := fun hh => h hh.symm
      simp only [groupInsert, if_neg h, List.map_cons, List.mem_cons, hs, false_or]
      by_cases h2 : sym ∈ List.map Prod.fst rest
      · rw [if_pos h2, ih, if_pos h2]
      · rw [if_neg h2, ih, if_neg h2]; simp

/-- Well-formedness of a symbol grouping: distinct symbols, nonempty groups
whose members all carry the group's symbol. -/
def GroupsWF (gs : List (String × List PyDict)) : Prop :=
  (groupKeys gs).Nodup ∧ ∀ p ∈ gs, p.2 ≠ [] ∧ ∀ x ∈ p.2, symKey x = p.1

theorem groupInsert_WF :
    ∀ gs : List (String × List PyDict), GroupsWF gs →
      ∀ sym t, symKey t = sym → GroupsWF (groupInsert gs sym t) := by
  intro gs
  induction gs with
  | nil =>
    intro _ sym t ht
    refine ⟨by simp [groupKeys, groupInsert], ?_⟩
    intro p hp
    simp [groupInsert] at hp
    subst hp
    exact ⟨by simp, by simpa using ht⟩
  | cons q rest ih =>
    obtain ⟨s, ts⟩ := q
    intro hwf sym t ht
    obtain ⟨hnd, hmem⟩ := hwf
    have hnd' : s ∉ groupKeys rest ∧ (groupKeys rest).Nodup := by
      simpa [groupKeys, List.nodup_cons] using hnd
    by_cases h : s = sym
    · subst h
      constructor
      · have : groupKeys (groupInsert ((s, ts) :: rest) s t) = groupKeys ((s, ts) :: rest) := by
          simp [groupInsert, groupKeys]
        rw [this]; exact hnd
      · intro p hp
        simp only [groupInsert, if_pos rfl] at hp
        rcases List.mem_cons.mp hp with hp | hp
        · subst hp
          refine ⟨by simp, ?_⟩
          intro x hx
          rcases List.mem_append.mp hx with hx | hx
          · exact (hmem (s, ts) (List.mem_cons_self _ _)).2 x hx
          · simp at hx; subst hx; exact ht
        · exact hmem p (List.mem_cons_of_mem _ hp)
    · have hrest : GroupsWF rest :=
        ⟨hnd'.2, fun p hp => hmem p (List.mem_cons_of_mem _ hp)⟩
      have hwf' := ih hrest sym t ht
      constructor
      · have hk := groupInsert_keys rest sym t
        have hsnot : s ∉ groupKeys (groupInsert rest sym t) := by
          rw [hk]
          by_cases h2 : sym ∈ groupKeys rest <;> simp [h2, hnd'.1, h]
        have hg : groupKeys (groupInsert ((s, ts) :: rest) sym t)
            = s :: groupKeys (groupInsert rest sym t) := by
          simp [groupInsert, h, groupKeys]
        rw [hg, List.nodup_cons]
        exact ⟨hsnot, hwf'.1⟩
      · intro p hp
        simp only [groupInsert, if_neg h] at hp
        rcases List.mem_cons.mp hp with hp | hp
        · subst hp; exact hmem (s, ts) (List.mem_cons_self _ _)
        · exact hwf'.2 p hp

theorem groupBySymbol_WF (ts : List PyDict) : GroupsWF (groupBySymbol ts) := by
  suffices h : ∀ gs, GroupsWF gs →
      GroupsWF (ts.foldl (fun gs t => groupInsert gs (symKey t) t) gs) by
    exact h [] ⟨by simp [groupKeys], by simp⟩
  induction ts with
  | nil => intro gs h; exact h
  | cons t rest ih =>
    intro gs h
    exact ih _ (groupInsert_WF gs h (symKey t) t rfl)

theorem symKey_emitConsensus (n : ℕ) (g : List PyDict) (t₀ : PyDict) :
    symKey (emitConsensus n g t₀) = symKey t₀ := by
  unfold symKey emitConsensus
  rw [dgetS_dset_ne _ _ _ _ _ (by decide), dgetS_dset_ne _ _ _ _ _ (by decide),
    dgetS_dset_ne _ _ _ _ _ (by decide)]

theorem mergeGroups_symKey_mem (n : ℕ) :
    ∀ groups : List (String × List PyDict),
      (∀ p ∈ groups, ∀ x ∈ p.2, symKey x = p.1) →
      ∀ u ∈ mergeGroups n groups, symKey u ∈ groupKeys groups := by
  intro groups
  induction groups with
  | nil => simp [mergeGroups]
  | cons p rest ih =>
    obtain ⟨s, g⟩ := p
    intro hmem u hu
    match g, hu with
    | [], hu =>
      have : u ∈ mergeGroups n rest := by simpa [mergeGroups] using hu
      exact List.mem_cons_of_mem _
        (ih (fun q hq => hmem q (List.mem_cons_of_mem _ hq)) u this)
    | t₀ :: g', hu =>
      simp only [mergeGroups] at hu
      rcases List.mem_append.mp hu with hu | hu
      · have hu' : u = emitConsensus n (t₀ :: g') t₀ := by
          by_cases hc : (((t₀ :: g').map normalizeTradeAction).toFinset.card = 1)
          · rw [if_pos hc] at hu; simpa using hu
          · rw [if_neg hc] at hu; simp at hu
        have hsk : symKey u = s := by
          rw [hu', symKey_emitConsensus]
          exact hmem (s, t₀ :: g') (List.mem_cons_self _ _) t₀ (List.mem_cons_self _ _)
        simp [groupKeys, hsk]
      · exact List.mem_cons_of_mem _
          (ih (fun q hq => hmem q (List.mem_cons_of_mem _ hq)) u hu)

theorem list_toFinset_card_one {α : Type} [DecidableEq α] (a : α) (l : List α) :
    ((a :: l).toFinset.card = 1) ↔ ∀ x ∈ a :: l, x = a := by
  constructor
  · intro h x hx
    obtain ⟨b, hb⟩ := Finset.card_eq_one.mp h
    have hxa : x ∈ (a :: l).toFinset := List.mem_toFinset.mpr hx
    have haa : a ∈ (a :: l).toFinset := List.mem_toFinset.mpr (List.mem_cons_self a l)
    rw [hb] at hxa haa
    simp only [Finset.mem_singleton] at hxa haa
    rw [hxa, haa]
  · intro h
    have : (a :: l).toFinset = {a} := by
      apply Finset.eq_singleton_iff_unique_mem.mpr
      exact ⟨List.mem_toFinset.mpr (List.mem_cons_self a l),
        fun x hx => h x (List.mem_toFinset.mp hx)⟩
    rw [this]
    simp

theorem mergeGroups_filter_length (n : ℕ) :
    ∀ groups : List (String × List PyDict), (groupKeys groups).Nodup →
      (∀ p ∈ groups, p.2 ≠ [] ∧ ∀ x ∈ p.2, symKey x = p.1) →
      ∀ sym g, (sym, g) ∈ groups →
      ((mergeGroups n groups).filter (fun u => symKey u == sym)).length =
        if (g.map normalizeTradeAction).toFinset.card = 1 then 1 else 0 := by
  intro groups
  induction groups with
  | nil => intro _ _ sym g hg; simp at hg
  | cons p rest ih =>
    obtain ⟨s₀, g₀⟩ := p
    intro hnd hmem sym g hg
    have hnd' : s₀ ∉ groupKeys rest ∧ (groupKeys rest).Nodup := by
      simpa [groupKeys, List.nodup_cons] using hnd
    have hrest_mem : ∀ q ∈ rest, q.2 ≠ [] ∧ ∀ x ∈ q.2, symKey x = q.1 :=
      fun q hq => hmem q (List.mem_cons_of_mem _ hq)
    have hkey_rest : ∀ u ∈ mergeGroups n rest, symKey u ∈ groupKeys rest :=
      mergeGroups_symKey_mem n rest (fun q hq => (hrest_mem q hq).2)
    rcases h0 : g₀ with _ | ⟨t₀, g₀'⟩
    · exact absurd rfl ((h0 ▸ hmem (s₀, g₀) (List.mem_cons_self _ _)).1)
    · subst h0
      have hemit : symKey (emitConsensus n (t₀ :: g₀') t₀) = s₀ := by
        rw [symKey_emitConsensus]
        exact (hmem (s₀, t₀ :: g₀') (List.mem_cons_self _ _)).2 t₀ (List.mem_cons_self _ _)
      have hsplit : mergeGroups n ((s₀, t₀ :: g₀') :: rest) =
          (if ((t₀ :: g₀').map normalizeTradeAction).toFinset.card = 1 then
            [emitConsensus n (t₀ :: g₀') t₀] else []) ++ mergeGroups n rest := rfl
      rcases List.mem_cons.mp hg with hg | hg
      · injection hg with h1 h2
        rw [h1, h2]
        have hrest_nil :
            (mergeGroups n rest).filter (fun u => symKey u == s₀) = [] := by
          apply List.filter_eq_nil_iff.mpr
          intro u hu
          have hk := hkey_rest u hu
          simp only [beq_iff_eq]
          intro hcon
          exact hnd'.1 (hcon ▸ hk)
        rw [hsplit, List.filter_append, hrest_nil, List.append_nil]
        by_cases hc : ((t₀ :: g₀').map normalizeTradeAction).toFinset.card = 1
        · rw [if_pos hc, if_pos hc]
          simp [hemit]
        · rw [if_neg hc, if_neg hc]
          simp
      · have hsym_rest : sym ∈ groupKeys rest := by
          have : (sym, g).1 ∈ List.map Prod.fst rest := List.mem_map_of_mem Prod.fst hg
          simpa [groupKeys] using this
        have hne : ¬(s₀ = sym) := fun hh => hnd'.1 (hh ▸ hsym_rest)
        have hhead_nil :
            ((if ((t₀ :: g₀').map normalizeTradeAction).toFinset.card = 1 then
              [emitConsensus n (t₀ :: g₀') t₀] else []).filter
                (fun u => symKey u == sym)) = [] := by
          by_cases hc : ((t₀ :: g₀').map normalizeTradeAction).toFinset.card = 1 <;>
            simp [hc, hemit, hne]
        rw [hsplit, List.filter_append, hhead_nil, List.nil_append]
        exact ih hnd'.2 hrest_mem sym g hg

/-! ## Concrete sample data for witnesses and counterexamples -/

/-- A sample proposal: OPEN BTCUSDT LONG at confidence 0.8. -/
def tradeA : PyDict :=
  [("action", PyVal.s "OPEN"), ("symbol", PyVal.s "BTCUSDT"),
   ("direction", PyVal.s "LONG"), ("confidence", PyVal.n (4/5))]

/-- A sample proposal: OPEN BTCUSDT LONG at confidence 0.6. -/
def tradeB : PyDict :=
  [("action", PyVal.s "OPEN"), ("symbol", PyVal.s "BTCUSDT"),
   ("direction", PyVal.s "LONG"), ("confidence", PyVal.n (3/5))]

/-- A sample proposal disagreeing on the action: CLOSE BTCUSDT. -/
def tradeC : PyDict :=
  [("action", PyVal.s "CLOSE"), ("symbol", PyVal.s "BTCUSDT"),
   ("direction", PyVal.s ""), ("confidence", PyVal.n (7/10))]

def decA : AIDecision := ⟨"DeepSeek", [tradeA]⟩

def decB : AIDecision := ⟨"Gemini", [tradeB]⟩

def taggedA : PyDict := dset tradeA "from_ai" (PyVal.s "DeepSeek")

def taggedB : PyDict := dset tradeB "from_ai" (PyVal.s "Gemini")

/-! ## Claim C1: unanimity of the consensus merger -/

/-- **C1** (confirmed).  For proposals from two or more sources, consider
any instrument group `(sym, t₀ :: g')` of the merger's symbol grouping.
The merged output contains exactly one decision for that instrument iff
every member's normalized `(action, instrument, direction)` triple equals
the first member's (i.e. the set of distinct triples has size 1); if the
set of distinct triples has size greater than 1, the output contains no
decision for that instrument. -/
theorem merge_unanimity (totalAIs : ℕ) (all : List AIDecision)
    (h2 : 2 ≤ all.length) (sym : String) (t₀ : PyDict) (g' : List PyDict)
    (hg : (sym, t₀ :: g') ∈ groupBySymbol (taggedTrades all)) :
    (((mergeDecisions totalAIs all).filter (fun u => symKey u == sym)).length = 1
        ↔ ∀ t ∈ t₀ :: g', normalizeTradeAction t = normalizeTradeAction t₀) ∧
    (1 < ((t₀ :: g').map normalizeTradeAction).toFinset.card →
        ((mergeDecisions totalAIs all).filter (fun u => symKey u == sym)).length = 0) := by
  have hM : mergeDecisions totalAIs all
      = mergeGroups totalAIs (groupBySymbol (taggedTrades all)) := by
    rcases all with _ | ⟨a, _ | ⟨b, rest⟩⟩
    · simp at h2
    · simp at h2
    · rfl
  have hwf := groupBySymbol_WF (taggedTrades all)
  have hlen := mergeGroups_filter_length totalAIs _ hwf.1 hwf.2 sym (t₀ :: g') hg
  rw [hM, hlen]
  have hcard : (((t₀ :: g').map normalizeTradeAction).toFinset.card = 1)
      ↔ ∀ t ∈ t₀ :: g', normalizeTradeAction t = normalizeTradeAction t₀ := by
    rw [List.map_cons,
      list_toFinset_card_one (normalizeTradeAction t₀) (g'.map normalizeTradeAction)]
    constructor
    · intro h t ht
      rcases List.mem_cons.mp ht with rfl | ht
      · rfl
      · exact h _ (List.mem_cons_of_mem _ (List.mem_map_of_mem _ ht))
    · intro h x hx
      rcases List.mem_cons.mp hx with rfl | hx
      · rfl
      · obtain ⟨t, ht, rfl⟩ := List.mem_map.mp hx
        exact h t (List.mem_cons_of_mem _ ht)
  constructor
  · by_cases hc : ((t₀ :: g').map normalizeTradeAction).toFinset.card = 1
    · rw [if_pos hc]
      exact ⟨fun _ => hcard.mp hc, fun _ => rfl⟩
    · rw [if_neg hc]
      constructor
      · intro h01; omega
      · intro hall; exact (hc (hcard.mpr hall)).elim
  · intro h1
    have hne : ¬(((t₀ :: g').map normalizeTradeAction).toFinset.card = 1) := by omega
    rw [if_neg hne]

/-- Witness for C1 at the spec's running example: two sources both propose
OPEN BTCUSDT LONG, and exactly one merged decision for BTCUSDT results. -/
theorem merge_unanimity_witness :
    (((mergeDecisions 2 [decA, decB]).filter (fun u => symKey u == "BTCUSDT")).length = 1
        ↔ ∀ t ∈ taggedA :: [taggedB], normalizeTradeAction t = normalizeTradeAction taggedA) ∧
    (1 < ((taggedA :: [taggedB]).map normalizeTradeAction).toFinset.card →
        ((mergeDecisions 2 [decA, decB]).filter (fun u => symKey u == "BTCUSDT")).length = 0) := by
  have hg : groupBySymbol (taggedTrades [decA, decB])
      = [("BTCUSDT", [taggedA, taggedB])] := rfl
  exact merge_unanimity 2 [decA, decB] (by decide) "BTCUSDT" taggedA [taggedB]
    (hg ▸ List.mem_singleton.mpr rfl)

/-! ## Claim C9: what merge does to its input proposals -/

/-- **C9** (counterexample to the claim as stated).  Merging two decisions
modifies the input proposal objects: each input trade dict acquires (or has
overwritten) the key `from_ai`.  Before the merge `tradeA` has no
`from_ai` key; after the merge both inputs carry their source's name. -/
theorem merge_mutation_counterexample :
    mergePostDecisions [decA, decB] ≠ [decA, decB] ∧
    dget tradeA "from_ai" = none ∧
    (mergePostDecisions [decA, decB]).map
        (fun d => d.trades.map (fun t => dget t "from_ai"))
      = [[some (PyVal.s "DeepSeek")], [some (PyVal.s "Gemini")]] := by
  refine ⟨?_, rfl, rfl⟩
  intro h
  have h2 : ([[some (PyVal.s "DeepSeek")], [some (PyVal.s "Gemini")]] :
      List (List (Option PyVal))) = [[none], [none]] := by
    calc ([[some (PyVal.s "DeepSeek")], [some (PyVal.s "Gemini")]] :
        List (List (Option PyVal)))
        = (mergePostDecisions [decA, decB]).map
            (fun d => d.trades.map (fun t => dget t "from_ai")) := rfl
      _ = [decA, decB].map (fun d => d.trades.map (fun t => dget t "from_ai")) := by rw [h]
      _ = [[none], [none]] := rfl
  exact absurd h2 (by decide)

/-- **C9** (amended, confirmed).  Merging never modifies any field of any
input proposal other than the source tag `from_ai`, which it writes in
place on every input trade when two or more decisions are merged; every
other key of every input trade holds the same value after the merge as
before, and the decisions keep their names and trade counts. -/
theorem merge_mutates_only_from_ai (all : List AIDecision) :
    List.Forall₂ (fun d d' => d'.aiName = d.aiName ∧
        List.Forall₂ (fun t t' => ∀ k, k ≠ "from_ai" → dget t' k = dget t k)
          d.trades d'.trades)
      all (mergePostDecisions all) := by
  have hbase : ∀ d : AIDecision,
      List.Forall₂ (fun t t' => ∀ k, k ≠ "from_ai" → dget t' k = dget t k)
        d.trades (d.trades.map (fun t => dset t "from_ai" (PyVal.s d.aiName))) := by
    intro d
    rw [List.forall₂_map_right_iff]
    exact List.forall₂_same.mpr (fun t _ k hk => dget_dset_ne t "from_ai" k _ hk)
  match all with
  | [] => exact List.Forall₂.nil
  | [d] =>
    refine List.Forall₂.cons ⟨rfl, ?_⟩ List.Forall₂.nil
    exact List.forall₂_same.mpr (fun t _ k hk => rfl)
  | a :: b :: rest =>
    have hred : mergePostDecisions (a :: b :: rest)
        = (a :: b :: rest).map (fun d =>
            { d with trades :=
                d.trades.map (fun t => dset t "from_ai" (PyVal.s d.aiName)) }) := rfl
    rw [hred, List.forall₂_map_right_iff]
    exact List.forall₂_same.mpr (fun d _ => ⟨rfl, hbase d⟩)

/-- Witness for the amended C9 at a concrete pair of decisions. -/
theorem merge_mutates_only_from_ai_witness :
    List.Forall₂ (fun d d' => d'.aiName = d.aiName ∧
        List.Forall₂ (fun t t' => ∀ k, k ≠ "from_ai" → dget t' k = dget t k)
          d.trades d'.trades)
      [decA, decB] (mergePostDecisions [decA, decB]) :=
  merge_mutates_only_from_ai [decA, decB]

/-! ## Analysis of quantity normalization -/

theorem floorToStep_eq (v s : ℚ) (hs : 0 < s) :
    floorToStep v s = (⌊v / s⌋ : ℚ) * s := by
  rw [floorToStep, if_neg (not_le.mpr hs)]

theorem floorToStep_self (m : ℤ) (s : ℚ) (hs : 0 < s) :
    floorToStep ((m : ℚ) * s) s = (m : ℚ) * s := by
  rw [floorToStep_eq _ _ hs, mul_div_cancel_right₀ _ hs.ne', Int.floor_intCast]

theorem roundHalfEven_intCast (z : ℤ) : roundHalfEven (z : ℚ) = z := by
  unfold roundHalfEven
  rw [Int.floor_intCast]
  norm_num

theorem roundToPrecision_eq_self (q : ℚ) (p : ℕ) (z : ℤ) (hz : q * 10 ^ p = (z : ℚ)) :
    roundToPrecision q p = q := by
  have h10 : ((10 : ℚ) ^ p) ≠ 0 := by positivity
  unfold roundToPrecision
  rw [hz, roundHalfEven_intCast, div_eq_iff h10]
  exact hz.symm

theorem ceil_step_notional (mn price s : ℚ) (hp : 0 < price) (hs : 0 < s) :
    mn ≤ (⌈mn / price / s⌉ : ℚ) * s * price := by
  have h1 : mn / price / s ≤ (⌈mn / price / s⌉ : ℚ) := Int.le_ceil _
  have h2 : mn / price ≤ (⌈mn / price / s⌉ : ℚ) * s := by
    rwa [div_le_iff₀ hs] at h1
  rwa [div_le_iff₀ hp] at h2

/-- The post-conditions `_normalize_quantity` establishes for a coherent
ruleset: the returned quantity is at least `minQty`, carries at least the
minimum notional at the given price, and is an integer multiple of the
step.  Coherence means: the selected filter's step and minimum are
positive, the minimum is itself a multiple of the step, and the step is
exactly representable at the advertised quantity precision. -/
theorem normalizeQuantity_spec (i : SymbolInfo) (qty price : ℚ) (orderType : String)
    (lot : LotFilter) (hsel : selectedLot i orderType = some lot)
    (hstep : 0 < lot.stepSize) (hmq : 0 < lot.minQty) (hmn : 0 < i.minNotional)
    (hp : 0 < price) (hmul : ∃ k : ℤ, lot.minQty = (k : ℚ) * lot.stepSize)
    (hprec : ∀ p : ℕ, i.quantityPrecision = some p →
      ∃ z : ℤ, lot.stepSize * 10 ^ p = (z : ℚ)) :
    lot.minQty ≤ normalizeQuantity (some i) qty price orderType ∧
    i.minNotional ≤ normalizeQuantity (some i) qty price orderType * price ∧
    ∃ m : ℤ, normalizeQuantity (some i) qty price orderType = (m : ℚ) * lot.stepSize := by
  obtain ⟨k, hk⟩ := hmul
  have hNQ : normalizeQuantity (some i) qty price orderType
      = applyPrecision (applyMinNotional (applyMinQty (applyStep qty lot.stepSize)
          lot.minQty) price i.minNotional lot.stepSize) i.quantityPrecision := by
    simp only [normalizeQuantity, hsel]
  have hm1 : applyStep qty lot.stepSize = (⌊qty / lot.stepSize⌋ : ℚ) * lot.stepSize := by
    rw [applyStep, if_pos hstep, floorToStep_eq _ _ hstep]
  set q1 := applyStep qty lot.stepSize with hq1def
  have hq2 : (lot.minQty ≤ applyMinQty q1 lot.minQty) ∧
      ∃ m : ℤ, applyMinQty q1 lot.minQty = (m : ℚ) * lot.stepSize := by
    rw [applyMinQty]
    by_cases hlt : lot.minQty ≠ 0 ∧ q1 < lot.minQty
    · rw [if_pos hlt]; exact ⟨le_refl _, ⟨k, hk⟩⟩
    · rw [if_neg hlt]
      push_neg at hlt
      exact ⟨hlt hmq.ne', ⟨⌊qty / lot.stepSize⌋, hm1⟩⟩
  obtain ⟨hq2a, m2, hm2⟩ := hq2
  set q2 := applyMinQty q1 lot.minQty with hq2def
  have hq3 : (lot.minQty ≤ applyMinNotional q2 price i.minNotional lot.stepSize) ∧
      (i.minNotional ≤ applyMinNotional q2 price i.minNotional lot.stepSize * price) ∧
      ∃ m : ℤ, applyMinNotional q2 price i.minNotional lot.stepSize
        = (m : ℚ) * lot.stepSize := by
    simp only [applyMinNotional, hp.ne', hstep, hmn.ne', ne_eq, not_false_eq_true,
      if_true, true_and, and_true]
    by_cases hnot : q2 * price < i.minNotional
    · rw [if_pos hnot]
      refine ⟨le_trans hq2a (le_max_left _ _), ?_, ?_⟩
      · have htr : (⌈i.minNotional / price / lot.stepSize⌉ : ℚ) * lot.stepSize
            ≤ max q2 ((⌈i.minNotional / price / lot.stepSize⌉ : ℚ) * lot.stepSize) :=
          le_max_right _ _
        calc i.minNotional
            ≤ (⌈i.minNotional / price / lot.stepSize⌉ : ℚ) * lot.stepSize * price :=
              ceil_step_notional _ _ _ hp hstep
          _ ≤ max q2 ((⌈i.minNotional / price / lot.stepSize⌉ : ℚ) * lot.stepSize)
                * price := by
              exact mul_le_mul_of_nonneg_right htr hp.le
      · rcases max_choice q2
          ((⌈i.minNotional / price / lot.stepSize⌉ : ℚ) * lot.stepSize) with hmax | hmax
        · exact ⟨m2, by rw [hmax, hm2]⟩
        · exact ⟨⌈i.minNotional / price / lot.stepSize⌉, by rw [hmax]⟩
    · rw [if_neg hnot]
      exact ⟨hq2a, not_lt.mp hnot, ⟨m2, hm2⟩⟩
  obtain ⟨hq3a, hq3b, m3, hm3⟩ := hq3
  set q3 := applyMinNotional q2 price i.minNotional lot.stepSize with hq3def
  cases hqp : i.quantityPrecision with
  | none =>
    rw [hNQ, hqp]
    exact ⟨hq3a, hq3b, m3, hm3⟩
  | some p =>
    obtain ⟨z, hz⟩ := hprec p hqp
    have hid : roundToPrecision q3 p = q3 := by
      apply roundToPrecision_eq_self _ _ (m3 * z)
      rw [hm3, mul_assoc, hz]
      push_cast
      ring
    have happ : applyPrecision q3 (some p) = q3 := hid
    rw [hNQ, hqp, happ]
    exact ⟨hq3a, hq3b, m3, hm3⟩

/-- Values that already satisfy the post-conditions are fixed points of
`_normalize_quantity` under a coherent ruleset. -/
theorem normalizeQuantity_fix (i : SymbolInfo) (price : ℚ) (orderType : String)
    (lot : LotFilter) (hsel : selectedLot i orderType = some lot)
    (hstep : 0 < lot.stepSize) (hp : 0 < price)
    (hprec : ∀ p : ℕ, i.quantityPrecision = some p →
      ∃ z : ℤ, lot.stepSize * 10 ^ p = (z : ℚ))
    (r : ℚ) (hr1 : lot.minQty ≤ r) (hr2 : i.minNotional ≤ r * price)
    (hr3 : ∃ m : ℤ, r = (m : ℚ) * lot.stepSize) :
    normalizeQuantity (some i) r price orderType = r := by
  obtain ⟨m, hm⟩ := hr3
  have hNQ : normalizeQuantity (some i) r price orderType
      = applyPrecision (applyMinNotional (applyMinQty (applyStep r lot.stepSize)
          lot.minQty) price i.minNotional lot.stepSize) i.quantityPrecision := by
    simp only [normalizeQuantity, hsel]
  have h1 : applyStep r lot.stepSize = r := by
    rw [applyStep, if_pos hstep, hm, floorToStep_self _ _ hstep]
  have h2 : applyMinQty r lot.minQty = r := by
    rw [applyMinQty, if_neg]
    intro hc
    exact absurd hr1 (not_le.mpr hc.2)
  have h3 : applyMinNotional r price i.minNotional lot.stepSize = r := by
    simp only [applyMinNotional, hp.ne', ne_eq, not_false_eq_true, if_true, true_and,
      and_true]
    split_ifs with hc
    · exact absurd hr2 (not_le.mpr hc.2)
    · rfl
  have h4 : applyPrecision r i.quantityPrecision = r := by
    cases hqp : i.quantityPrecision with
    | none => rfl
    | some p =>
      obtain ⟨z, hz⟩ := hprec p hqp
      show roundToPrecision r p = r
      apply roundToPrecision_eq_self _ _ (m * z)
      rw [hm, mul_assoc, hz]
      push_cast
      ring
  rw [hNQ, h1, h2, h3, h4]

/-- The spec's example ruleset: step 0.001, min quantity 0.001, min
notional 5, quantity precision 3 decimals. -/
def sampleInfo : SymbolInfo :=
  { lotSize := some ⟨1/1000, 1/1000⟩, marketLotSize := none, minNotional := 5,
    tickSize := 1/10, quantityPrecision := some 3, pricePrecision := some 1 }

/-- A ruleset with positive step, minimum quantity and minimum notional
whose step (0.12) is not representable at its quantity precision (1
decimal). -/
def badInfoC2 : SymbolInfo :=
  { lotSize := some ⟨12/100, 12/100⟩, marketLotSize := none, minNotional := 5,
    tickSize := 1/10, quantityPrecision := some 1, pricePrecision := some 1 }

/-- A ruleset with positive step, minimum quantity and minimum notional
whose step (0.17) is not representable at its quantity precision (1
decimal). -/
def badInfoC8 : SymbolInfo :=
  { lotSize := some ⟨17/100, 17/100⟩, marketLotSize := none, minNotional := 1,
    tickSize := 1/10, quantityPrecision := some 1, pricePrecision := some 1 }

/-! ## Claim C2: lower bounds of quantity normalization -/

/-- **C2** (counterexample to the claim as stated).  A ruleset with
positive `quantity_step` (0.12), `min_quantity` (0.12) and `min_notional`
(5) and a price (1000) above zero on which the returned quantity violates
`result ≥ min_quantity`: for raw quantity 0.13 the step floor keeps 0.12,
but the final rounding to the advertised quantity precision (1 decimal)
lowers it to 0.1 < 0.12. -/
theorem normalize_quantity_bounds_counterexample :
    normalizeQuantity (some badInfoC2) (13/100) 1000 "MARKET" < 12/100 ∧
    ((0:ℚ) < 12/100 ∧ (0:ℚ) < 5 ∧ (0:ℚ) < 1000) := by
  have hNQ : normalizeQuantity (some badInfoC2) (13/100) 1000 "MARKET"
      = applyPrecision (applyMinNotional (applyMinQty (applyStep (13/100) (12/100))
          (12/100)) 1000 5 (12/100)) (some 1) := rfl
  have h1 : applyStep (13/100 : ℚ) (12/100) = 12/100 := by
    norm_num [applyStep, floorToStep]
  have h2 : applyMinQty (12/100 : ℚ) (12/100) = 12/100 := by
    norm_num [applyMinQty]
  have h3 : applyMinNotional (12/100 : ℚ) 1000 5 (12/100) = 12/100 := by
    norm_num [applyMinNotional]
  have h4 : applyPrecision (12/100 : ℚ) (some 1) = 1/10 := by
    norm_num [applyPrecision, roundToPrecision, roundHalfEven]
  rw [hNQ, h1, h2, h3, h4]
  norm_num

/-- **C2** (amended, confirmed).  For a coherent ruleset — positive step,
minimum quantity and minimum notional, with the minimum quantity an
integer multiple of the step and the step exactly representable at the
advertised quantity precision — and any price above zero, the normalized
quantity is at least `min_quantity`, its notional at the given price is at
least `min_notional`, and it is an exact integer multiple of
`quantity_step`. -/
theorem normalize_quantity_lower_bounds (i : SymbolInfo) (qty price : ℚ)
    (orderType : String) (lot : LotFilter) (hsel : selectedLot i orderType = some lot)
    (hstep : 0 < lot.stepSize) (hmq : 0 < lot.minQty) (hmn : 0 < i.minNotional)
    (hp : 0 < price) (hmul : ∃ k : ℤ, lot.minQty = (k : ℚ) * lot.stepSize)
    (hprec : ∀ p : ℕ, i.quantityPrecision = some p →
      ∃ z : ℤ, lot.stepSize * 10 ^ p = (z : ℚ)) :
    lot.minQty ≤ normalizeQuantity (some i) qty price orderType ∧
    i.minNotional ≤ normalizeQuantity (some i) qty price orderType * price ∧
    ∃ m : ℤ, normalizeQuantity (some i) qty price orderType = (m : ℚ) * lot.stepSize :=
  normalizeQuantity_spec i qty price orderType lot hsel hstep hmq hmn hp hmul hprec

/-- Witness for the amended C2 at the claim's own instance: step 0.001,
min quantity 0.001, min notional 5, price 100, raw quantity 0.0001.  The
theorem gives the bounds; the result in fact evaluates to 0.05 = 5/100,
which is ≥ 0.05 and a multiple of 0.001. -/
theorem normalize_quantity_lower_bounds_witness :
    ((1/1000 : ℚ) ≤ normalizeQuantity (some sampleInfo) (1/10000) 100 "MARKET" ∧
     (5:ℚ) ≤ normalizeQuantity (some sampleInfo) (1/10000) 100 "MARKET" * 100 ∧
     ∃ m : ℤ, normalizeQuantity (some sampleInfo) (1/10000) 100 "MARKET"
       = (m : ℚ) * (1/1000)) ∧
    normalizeQuantity (some sampleInfo) (1/10000) 100 "MARKET" = 1/20 := by
  constructor
  · exact normalize_quantity_lower_bounds sampleInfo (1/10000) 100 "MARKET"
      ⟨1/1000, 1/1000⟩ rfl (by norm_num) (by norm_num) (by norm_num [sampleInfo])
      (by norm_num) ⟨1, by norm_num⟩
      (fun p hp => by
        injection hp with h
        subst h
        exact ⟨1, by norm_num⟩)
  · have hNQ : normalizeQuantity (some sampleInfo) (1/10000) 100 "MARKET"
        = applyPrecision (applyMinNotional (applyMinQty (applyStep (1/10000) (1/1000))
            (1/1000)) 100 5 (1/1000)) (some 3) := rfl
    have h1 : applyStep (1/10000 : ℚ) (1/1000) = 0 := by
      norm_num [applyStep, floorToStep]
    have h2 : applyMinQty (0 : ℚ) (1/1000) = 1/1000 := by
      norm_num [applyMinQty]
    have h3 : applyMinNotional (1/1000 : ℚ) 100 5 (1/1000) = 1/20 := by
      norm_num [applyMinNotional]
    have h4 : applyPrecision (1/20 : ℚ) (some 3) = 1/20 := by
      norm_num [applyPrecision, roundToPrecision, roundHalfEven]
    rw [hNQ, h1, h2, h3, h4]

/-! ## Claim C8: idempotence of quantity normalization -/

/-- **C8** (counterexample to the claim as stated).  With the fetched
ruleset `badInfoC8` (step 0.17, min quantity 0.17, min notional 1,
quantity precision 1) and price 100 > 0, normalizing 0.34 yields 0.3
(3.4 rounds down to 3 tenths), but normalizing 0.3 again yields 0.2
(floor to step gives 0.17, which rounds to 2 tenths): normalization is
not idempotent on this ruleset. -/
theorem normalize_quantity_idempotent_counterexample :
    normalizeQuantity (some badInfoC8)
        (normalizeQuantity (some badInfoC8) (34/100) 100 "MARKET") 100 "MARKET"
      ≠ normalizeQuantity (some badInfoC8) (34/100) 100 "MARKET" := by
  have hNQ : ∀ q : ℚ, normalizeQuantity (some badInfoC8) q 100 "MARKET"
      = applyPrecision (applyMinNotional (applyMinQty (applyStep q (17/100))
          (17/100)) 100 1 (17/100)) (some 1) := fun q => rfl
  have e1 : normalizeQuantity (some badInfoC8) (34/100) 100 "MARKET" = 3/10 := by
    rw [hNQ]
    have h1 : applyStep (34/100 : ℚ) (17/100) = 34/100 := by
      norm_num [applyStep, floorToStep]
    have h2 : applyMinQty (34/100 : ℚ) (17/100) = 34/100 := by
      norm_num [applyMinQty]
    have h3 : applyMinNotional (34/100 : ℚ) 100 1 (17/100) = 34/100 := by
      norm_num [applyMinNotional]
    have h4 : applyPrecision (34/100 : ℚ) (some 1) = 3/10 := by
      norm_num [applyPrecision, roundToPrecision, roundHalfEven]
    rw [h1, h2, h3, h4]
  have e2 : normalizeQuantity (some badInfoC8) (3/10) 100 "MARKET" = 1/5 := by
    rw [hNQ]
    have h1 : applyStep (3/10 : ℚ) (17/100) = 17/100 := by
      norm_num [applyStep, floorToStep]
    have h2 : applyMinQty (17/100 : ℚ) (17/100) = 17/100 := by
      norm_num [applyMinQty]
    have h3 : applyMinNotional (17/100 : ℚ) 100 1 (17/100) = 17/100 := by
      norm_num [applyMinNotional]
    have h4 : applyPrecision (17/100 : ℚ) (some 1) = 1/5 := by
      norm_num [applyPrecision, roundToPrecision, roundHalfEven]
    rw [h1, h2, h3, h4]
  rw [e1, e2]
  norm_num

/-- **C8** (amended, confirmed).  For a coherent ruleset — positive step,
minimum quantity and minimum notional, minimum quantity a multiple of the
step, step representable at the quantity precision — and price > 0,
`_normalize_quantity` is idempotent: normalizing an already-normalized
quantity returns it unchanged. -/
theorem normalize_quantity_idempotent (i : SymbolInfo) (qty price : ℚ)
    (orderType : String) (lot : LotFilter) (hsel : selectedLot i orderType = some lot)
    (hstep : 0 < lot.stepSize) (hmq : 0 < lot.minQty) (hmn : 0 < i.minNotional)
    (hp : 0 < price) (hmul : ∃ k : ℤ, lot.minQty = (k : ℚ) * lot.stepSize)
    (hprec : ∀ p : ℕ, i.quantityPrecision = some p →
      ∃ z : ℤ, lot.stepSize * 10 ^ p = (z : ℚ)) :
    normalizeQuantity (some i) (normalizeQuantity (some i) qty price orderType)
        price orderType
      = normalizeQuantity (some i) qty price orderType := by
  obtain ⟨h1, h2, h3⟩ :=
    normalizeQuantity_spec i qty price orderType lot hsel hstep hmq hmn hp hmul hprec
  exact normalizeQuantity_fix i price orderType lot hsel hstep hp hprec _ h1 h2 h3

/-- Witness for the amended C8 at the spec's example ruleset. -/
theorem normalize_quantity_idempotent_witness :
    normalizeQuantity (some sampleInfo)
        (normalizeQuantity (some sampleInfo) (1/10000) 100 "MARKET") 100 "MARKET"
      = normalizeQuantity (some sampleInfo) (1/10000) 100 "MARKET" :=
  normalize_quantity_idempotent sampleInfo (1/10000) 100 "MARKET"
    ⟨1/1000, 1/1000⟩ rfl (by norm_num) (by norm_num) (by norm_num [sampleInfo])
    (by norm_num) ⟨1, by norm_num⟩
    (fun p hp => by
      injection hp with h
      subst h
      exact ⟨1, by norm_num⟩)

/-! ## Concrete executor scenario data -/

/-- A concrete exchange oracle on which every call succeeds and every
instrument carries the sample ruleset; the public ticker quotes 50000. -/
def sampleExchange : Exchange :=
  { symbolInfo := fun _ => some sampleInfo
    tickerPrice := fun _ => some 50000
    leverageOk := fun _ _ => true
    marketOrderId := fun _ _ _ => some 111
    stopOrderId := fun _ _ _ => some 222
    cancelOk := fun _ _ => true
    openStopOrders := fun _ => none }

/-- Results accumulator for one pending decision. -/
def res0 : ExecResults := ⟨1, 0, 0, 0, []⟩

/-- A decision carrying no confidence key: `trade.get('confidence', 0)`
reads 0, below any positive threshold. -/
def tradeLowConf : PyDict :=
  [("action", PyVal.s "OPEN"), ("symbol", PyVal.s "BTCUSDT")]

/-- An open LONG ledger position: 2 BTC at entry 50000, stop 49000. -/
def posLong : Position := ⟨"LONG", 2, 50000, 49000, 3, some 222⟩

/-- A full-confidence CLOSE at a target price (48000) below the position's
entry (50000): a loss-realizing close. -/
def tradeCloseLoss : PyDict :=
  [("action", PyVal.s "CLOSE"), ("symbol", PyVal.s "BTCUSDT"),
   ("entry_price_target", PyVal.n 48000), ("confidence", PyVal.n 1)]

/-- A breakout decision spelled with the spec's action name
`BREAKOUT_LONG`, at full confidence with all open-position fields set. -/
def tradeBreakout : PyDict :=
  [("action", PyVal.s "BREAKOUT_LONG"), ("symbol", PyVal.s "BTCUSDT"),
   ("direction", PyVal.s "LONG"), ("leverage", PyVal.n 3),
   ("position_size_percent", PyVal.n 1), ("stop_loss", PyVal.n 49000),
   ("entry_price_target", PyVal.n 50000), ("confidence", PyVal.n 1)]

/-- The same breakout decision spelled with the code's action token `BP`. -/
def tradeBP : PyDict :=
  [("action", PyVal.s "BP"), ("symbol", PyVal.s "BTCUSDT"),
   ("direction", PyVal.s "LONG"), ("leverage", PyVal.n 3),
   ("position_size_percent", PyVal.n 1), ("stop_loss", PyVal.n 49000),
   ("entry_price_target", PyVal.n 50000), ("confidence", PyVal.n 1)]

/-! ## Claim C4: the confidence gate -/

/-- **C4** (confirmed).  A decision whose confidence is strictly below the
threshold is never executed, whatever its action: the step counts it as
`skipped_low_confidence`, appends the corresponding detail record, issues
no exchange call and leaves the position ledger untouched. -/
theorem confidence_gate_skips (ct : ℚ) (ex : Exchange) (cash : ℚ)
    (st : Positions) (res : ExecResults) (evs : List ExchangeCall) (trade : PyDict)
    (h : dgetN trade "confidence" 0 < ct) :
    executeTradeStep ct ex cash (st, res, evs) trade =
      (st,
       { res with skipped_low_confidence := res.skipped_low_confidence + 1,
                  details := res.details ++
                    [⟨dgetS trade "symbol" "UNKNOWN", dgetS trade "action" "UNKNOWN",
                      "skipped_low_confidence"⟩] },
       evs) := by
  simp only [executeTradeStep]
  rw [if_pos h]

/-- Witness for C4: a decision with no confidence field (read as 0) under
threshold 1 is skipped with no exchange call and an unchanged ledger. -/
theorem confidence_gate_skips_witness :
    executeTradeStep 1 sampleExchange 1000 ([], res0, []) tradeLowConf =
      ([], { res0 with
               skipped_low_confidence := 1,
               details := [⟨"BTCUSDT", "OPEN", "skipped_low_confidence"⟩] }, []) := by
  have h := confidence_gate_skips 1 sampleExchange 1000 [] res0 [] tradeLowConf (by decide)
  rw [h]
  decide

/-! ## Claim C3: the loss guard -/

/-- **C3** (confirmed).  For any CLOSE decision on an instrument holding
an open ledger position whose close reference price is adverse (strictly
below entry for a LONG, strictly above entry for a SHORT), the step leaves
the ledger unchanged, issues no exchange call, and counts the decision as
skipped — never as executed or failed — at every confidence value. -/
theorem loss_guard_skips (ct : ℚ) (ex : Exchange) (cash : ℚ)
    (st : Positions) (res : ExecResults) (evs : List ExchangeCall) (trade : PyDict)
    (pos : Position)
    (hpos : posGet st (dgetS trade "symbol" "UNKNOWN") = some pos)
    (hact : dgetS trade "action" "UNKNOWN" = "CLOSE")
    (hloss : (pos.direction = "LONG" ∧ closeRefPrice trade pos < pos.entry_price) ∨
             (pos.direction = "SHORT" ∧ pos.entry_price < closeRefPrice trade pos)) :
    (executeTradeStep ct ex cash (st, res, evs) trade).1 = st ∧
    (executeTradeStep ct ex cash (st, res, evs) trade).2.2 = evs ∧
    (executeTradeStep ct ex cash (st, res, evs) trade).2.1.skipped_low_confidence
      = res.skipped_low_confidence + 1 ∧
    (executeTradeStep ct ex cash (st, res, evs) trade).2.1.executed = res.executed ∧
    (executeTradeStep ct ex cash (st, res, evs) trade).2.1.failed = res.failed := by
  have hguard : isLossClose st trade (dgetS trade "action" "UNKNOWN")
      (dgetS trade "symbol" "UNKNOWN") = true := by
    simp only [isLossClose, hact, if_true, hpos, decide_eq_true_eq]
    exact hloss
  by_cases hc : dgetN trade "confidence" 0 < ct
  · simp only [executeTradeStep]
    rw [if_pos hc]
    simp
  · simp only [executeTradeStep]
    rw [if_neg hc, if_pos hguard]
    simp

/-- Witness for C3: a confidence-1.0 CLOSE on a LONG at entry 50000 with
target 48000 is skipped; ledger, trace and executed/failed counters are
unchanged. -/
theorem loss_guard_skips_witness :
    (executeTradeStep 1 sampleExchange 1000 ([("BTCUSDT", posLong)], res0, [])
        tradeCloseLoss).1 = [("BTCUSDT", posLong)] ∧
    (executeTradeStep 1 sampleExchange 1000 ([("BTCUSDT", posLong)], res0, [])
        tradeCloseLoss).2.2 = [] ∧
    (executeTradeStep 1 sampleExchange 1000 ([("BTCUSDT", posLong)], res0, [])
        tradeCloseLoss).2.1.skipped_low_confidence = res0.skipped_low_confidence + 1 ∧
    (executeTradeStep 1 sampleExchange 1000 ([("BTCUSDT", posLong)], res0, [])
        tradeCloseLoss).2.1.executed = res0.executed ∧
    (executeTradeStep 1 sampleExchange 1000 ([("BTCUSDT", posLong)], res0, [])
        tradeCloseLoss).2.1.failed = res0.failed :=
  loss_guard_skips 1 sampleExchange 1000 [("BTCUSDT", posLong)] res0 [] tradeCloseLoss
    posLong rfl rfl (Or.inl ⟨rfl, by decide⟩)

/-! ## Claim C7: dispatch of breakout actions -/

/-- **C7** (amended, confirmed).  A decision that passes the confidence
gate and whose action is one of the code's breakout tokens `BP` / `SP` is
dispatched to exactly the same open-position path as an `OPEN` decision:
the step outcome is `openPathStep`, i.e. `execute_open_position` (set
leverage, size the position, market order, protective stop, record the
Position) followed by the success/failure counting, not the
unrecognized-action branch. -/
theorem breakout_dispatches_open (ct : ℚ) (ex : Exchange) (cash : ℚ)
    (st : Positions) (res : ExecResults) (evs : List ExchangeCall) (trade : PyDict)
    (hconf : ct ≤ dgetN trade "confidence" 0)
    (hact : dgetS trade "action" "UNKNOWN" = "BP" ∨ dgetS trade "action" "UNKNOWN" = "SP"
      ∨ dgetS trade "action" "UNKNOWN" = "OPEN") :
    executeTradeStep ct ex cash (st, res, evs) trade
      = openPathStep ex cash st res evs trade := by
  have hc : ¬(dgetN trade "confidence" 0 < ct) := not_lt.mpr hconf
  rcases hE : executeOpenPosition ex cash st trade with ⟨b, st', nevs⟩
  rcases hact with h | h | h <;>
    cases b <;>
      simp [executeTradeStep, openPathStep, isLossClose, hc, h, hE]

/-- Witness for the amended C7: a full-confidence `BP` decision is routed
to the open-position path. -/
theorem breakout_dispatches_open_witness :
    executeTradeStep 1 sampleExchange 1000 ([], res0, []) tradeBP
      = openPathStep sampleExchange 1000 [] res0 [] tradeBP :=
  breakout_dispatches_open 1 sampleExchange 1000 [] res0 [] tradeBP (by decide)
    (Or.inl rfl)

/-- The position the open path records for `tradeBP`/`tradeBreakout` on
`sampleExchange`: quantity 1000 × 1 × 3 / 50000 = 0.06. -/
def breakoutPos : Position := ⟨"LONG", 3/50, 50000, 49000, 3, some 222⟩

/-- **C7** (counterexample to the claim as stated).  A full-confidence
decision whose action is spelled `BREAKOUT_LONG` — the spec's name for the
breakout action — lands in the unrecognized-action branch: it is counted
failed with no exchange call and no ledger write.  On the same exchange,
the open-position path (shown in the second conjunct) would set leverage,
place a market order for the normalized quantity 0.06, place the
protective stop and record the position. -/
theorem breakout_dispatch_counterexample :
    executeTradeStep 1 sampleExchange 1000 ([], res0, []) tradeBreakout =
      ([], { res0 with
               failed := 1,
               details := [⟨"BTCUSDT", "BREAKOUT_LONG", "failed"⟩] }, []) ∧
    openPathStep sampleExchange 1000 [] res0 [] tradeBreakout =
      ([("BTCUSDT", breakoutPos)],
       { res0 with
           executed := 1,
           details := [⟨"BTCUSDT", "BREAKOUT_LONG", "success"⟩] },
       [ExchangeCall.setLeverage "BTCUSDT" 3,
        ExchangeCall.marketOrder "BTCUSDT" "BUY" (3/50),
        ExchangeCall.stopOrder "BTCUSDT" "SELL" 49000]) := by
  constructor
  · decide
  · have hnq : normalizeQuantity (some sampleInfo) (3/50) 50000 "MARKET" = 3/50 := by
      have hNQ : normalizeQuantity (some sampleInfo) (3/50) 50000 "MARKET"
          = applyPrecision (applyMinNotional (applyMinQty (applyStep (3/50) (1/1000))
              (1/1000)) 50000 5 (1/1000)) (some 3) := rfl
      have h1 : applyStep (3/50 : ℚ) (1/1000) = 3/50 := by
        norm_num [applyStep, floorToStep]
      have h2 : applyMinQty (3/50 : ℚ) (1/1000) = 3/50 := by
        norm_num [applyMinQty]
      have h3 : applyMinNotional (3/50 : ℚ) 50000 5 (1/1000) = 3/50 := by
        norm_num [applyMinNotional]
      have h4 : applyPrecision (3/50 : ℚ) (some 3) = 3/50 := by
        norm_num [applyPrecision, roundToPrecision, roundHalfEven]
      rw [hNQ, h1, h2, h3, h4]
    have hnp : normalizePrice (some sampleInfo) 49000 = 49000 := by
      have hNP : normalizePrice (some sampleInfo) 49000
          = applyPrecision (if (0:ℚ) < 1/10 then floorToStep 49000 (1/10) else 49000)
              (some 1) := rfl
      have h1 : ((if (0:ℚ) < 1/10 then floorToStep 49000 (1/10) else 49000) : ℚ)
          = 49000 := by
        norm_num [floorToStep]
      have h2 : applyPrecision (49000 : ℚ) (some 1) = 49000 := by
        norm_num [applyPrecision, roundToPrecision, roundHalfEven]
      rw [hNP, h1, h2]
    simp [openPathStep, executeOpenPosition, setLeverageCall, placeMarketOrderCall,
      placeStopLossOrderCall, sampleExchange, tradeBreakout, breakoutPos,
      dgetS, dgetN, dget, pyInt, posSet, res0]
    norm_num [hnq, hnp]

/-! ## Claim C10: the execution summary partitions the input -/

theorem executeTradeStep_counts (ct : ℚ) (ex : Exchange) (cash : ℚ)
    (acc : Positions × ExecResults × List ExchangeCall) (trade : PyDict) :
    (executeTradeStep ct ex cash acc trade).2.1.total = acc.2.1.total ∧
    (executeTradeStep ct ex cash acc trade).2.1.executed
        + (executeTradeStep ct ex cash acc trade).2.1.skipped_low_confidence
        + (executeTradeStep ct ex cash acc trade).2.1.failed
      = acc.2.1.executed + acc.2.1.skipped_low_confidence + acc.2.1.failed + 1 ∧
    (executeTradeStep ct ex cash acc trade).2.1.details.length
      = acc.2.1.details.length + 1 := by
  obtain ⟨st, res, evs⟩ := acc
  simp only [executeTradeStep]
  by_cases h1 : dgetN trade "confidence" 0 < ct
  · rw [if_pos h1]
    simp
    omega
  · rw [if_neg h1]
    by_cases h2 : isLossClose st trade (dgetS trade "action" "UNKNOWN")
        (dgetS trade "symbol" "UNKNOWN") = true
    · rw [if_pos h2]
      simp
      omega
    · rw [if_neg h2]
      split
      · simp
        omega
      · simp
        omega

theorem executeTrades_foldl_counts (ct : ℚ) (ex : Exchange) (cash : ℚ) :
    ∀ (trades : List PyDict) (acc : Positions × ExecResults × List ExchangeCall),
      ((trades.foldl (executeTradeStep ct ex cash) acc).2.1.total = acc.2.1.total) ∧
      ((trades.foldl (executeTradeStep ct ex cash) acc).2.1.executed
          + (trades.foldl (executeTradeStep ct ex cash) acc).2.1.skipped_low_confidence
          + (trades.foldl (executeTradeStep ct ex cash) acc).2.1.failed
        = acc.2.1.executed + acc.2.1.skipped_low_confidence + acc.2.1.failed
            + trades.length) ∧
      ((trades.foldl (executeTradeStep ct ex cash) acc).2.1.details.length
        = acc.2.1.details.length + trades.length) := by
  intro trades
  induction trades with
  | nil => intro acc; simp
  | cons t rest ih =>
    intro acc
    have hstep := executeTradeStep_counts ct ex cash acc t
    have hrest := ih (executeTradeStep ct ex cash acc t)
    simp only [List.foldl_cons, List.length_cons]
    refine ⟨?_, ?_, ?_⟩ <;> omega

/-- **C10** (confirmed).  First part: for every run of `execute_trades`,
the summary partitions the input — `total` is the length of the input
list, `executed + skipped_low_confidence + failed = total`, and exactly
one detail record exists per decision.  Second part: a decision skipped by
the loss guard is counted in the `skipped_low_confidence` counter with
detail status `skipped_loss_position`, leaving the ledger, the trace and
the executed/failed counters alone. -/
theorem execution_summary_partition :
    (∀ (ct : ℚ) (ex : Exchange) (trades : List PyDict) (cash : ℚ) (st : Positions),
      (executeTrades ct ex trades cash st).2.1.total = trades.length ∧
      (executeTrades ct ex trades cash st).2.1.executed
          + (executeTrades ct ex trades cash st).2.1.skipped_low_confidence
          + (executeTrades ct ex trades cash st).2.1.failed = trades.length ∧
      (executeTrades ct ex trades cash st).2.1.details.length = trades.length) ∧
    (∀ (ct : ℚ) (ex : Exchange) (cash : ℚ) (st : Positions) (res : ExecResults)
        (evs : List ExchangeCall) (trade : PyDict) (pos : Position),
      ct ≤ dgetN trade "confidence" 0 →
      posGet st (dgetS trade "symbol" "UNKNOWN") = some pos →
      dgetS trade "action" "UNKNOWN" = "CLOSE" →
      ((pos.direction = "LONG" ∧ closeRefPrice trade pos < pos.entry_price) ∨
       (pos.direction = "SHORT" ∧ pos.entry_price < closeRefPrice trade pos)) →
      executeTradeStep ct ex cash (st, res, evs) trade =
        (st,
         { res with skipped_low_confidence := res.skipped_low_confidence + 1,
                    details := res.details ++
                      [⟨dgetS trade "symbol" "UNKNOWN", "CLOSE",
                        "skipped_loss_position"⟩] },
         evs)) := by
  constructor
  · intro ct ex trades cash st
    have h := executeTrades_foldl_counts ct ex cash trades
      (st, ⟨trades.length, 0, 0, 0, []⟩, [])
    simpa [executeTrades] using h
  · intro ct ex cash st res evs trade pos hconf hpos hact hloss
    have hc : ¬(dgetN trade "confidence" 0 < ct) := not_lt.mpr hconf
    have hguard : isLossClose st trade (dgetS trade "action" "UNKNOWN")
        (dgetS trade "symbol" "UNKNOWN") = true := by
      simp only [isLossClose, hact, if_true, hpos, decide_eq_true_eq]
      exact hloss
    simp only [executeTradeStep]
    rw [if_neg hc, if_pos hguard, hact]

/-- Witness for C10: a two-decision cycle (one below the confidence gate,
one stopped by the loss guard) yields total = 2 with the counters
partitioning it, and the loss-guarded step is counted as skipped with
detail `skipped_loss_position`. -/
theorem execution_summary_partition_witness :
    ((executeTrades 1 sampleExchange [tradeLowConf, tradeCloseLoss] 1000
        [("BTCUSDT", posLong)]).2.1.total = 2 ∧
     (executeTrades 1 sampleExchange [tradeLowConf, tradeCloseLoss] 1000
          [("BTCUSDT", posLong)]).2.1.executed
        + (executeTrades 1 sampleExchange [tradeLowConf, tradeCloseLoss] 1000
            [("BTCUSDT", posLong)]).2.1.skipped_low_confidence
        + (executeTrades 1 sampleExchange [tradeLowConf, tradeCloseLoss] 1000
            [("BTCUSDT", posLong)]).2.1.failed = 2 ∧
     (executeTrades 1 sampleExchange [tradeLowConf, tradeCloseLoss] 1000
        [("BTCUSDT", posLong)]).2.1.details.length = 2) ∧
    executeTradeStep 1 sampleExchange 1000 ([("BTCUSDT", posLong)], res0, [])
        tradeCloseLoss =
      ([("BTCUSDT", posLong)],
       { res0 with
           skipped_low_confidence := 1,
           details := [⟨"BTCUSDT", "CLOSE", "skipped_loss_position"⟩] },
       []) := by
  constructor
  · have h := execution_summary_partition.1 1 sampleExchange
      [tradeLowConf, tradeCloseLoss] 1000 [("BTCUSDT", posLong)]
    simpa using h
  · have h := execution_summary_partition.2 1 sampleExchange 1000
      [("BTCUSDT", posLong)] res0 [] tradeCloseLoss posLong (by decide) rfl rfl
      (Or.inl ⟨rfl, by decide⟩)
    rw [h]
    decide

/-! ## Claims C5 and C6: the signed request client -/

/-- **C5** (confirmed).  When the credentials are present and all three
attempts time out, `_send_signed_request` returns the structured
`REQUEST_TIMEOUT` error dict (no exception), the position ledger is
unchanged, and the three parameter sets actually sent are each derived
fresh from the preserved original parameters (with the default
`recvWindow`) using only that attempt's own timestamp and signature —
never from a parameter set used by an earlier attempt. -/
theorem retry_exhaustion_timeout (c : SignedClient) (kk ks : String)
    (hk : c.apiKey = some kk) (hs : c.apiSecret = some ks)
    (params : PyDict) (outcomes : ℕ → AttemptOutcome) (times : ℕ → ℤ)
    (st : Positions)
    (hto : ∀ i, i < 3 → outcomes i = AttemptOutcome.timeout) :
    sendSignedRequest c params outcomes times st =
      ([("code", PyVal.n (-1)), ("msg", PyVal.s "REQUEST_TIMEOUT"),
        ("error", PyVal.s "请求超时")],
       [attemptParams c (withRecv params) (times 0),
        attemptParams c (withRecv params) (times 1),
        attemptParams c (withRecv params) (times 2)], st) := by
  have h0 := hto 0 (by omega)
  have h1 := hto 1 (by omega)
  have h2 := hto 2 (by omega)
  simp [sendSignedRequest, hk, hs, sendLoop, h0, h1, h2]

/-- Witness client: credentials present, abstract signature function. -/
def clientW : SignedClient := ⟨some "key", some "secret", fun _ => "deadbeef"⟩

/-- Witness parameter set for a signed order call. -/
def paramsW : PyDict := [("symbol", PyVal.s "BTCUSDT"), ("side", PyVal.s "BUY")]

/-- Witness for C5: all three attempts time out; the structured timeout
error is returned, the ledger is unchanged, and attempts 0, 1, 2 each sent
a fresh signed copy of the original parameters. -/
theorem retry_exhaustion_timeout_witness :
    sendSignedRequest clientW paramsW (fun _ => AttemptOutcome.timeout)
        (fun i => (i : ℤ)) [] =
      ([("code", PyVal.n (-1)), ("msg", PyVal.s "REQUEST_TIMEOUT"),
        ("error", PyVal.s "请求超时")],
       [attemptParams clientW (withRecv paramsW) 0,
        attemptParams clientW (withRecv paramsW) 1,
        attemptParams clientW (withRecv paramsW) 2], []) :=
  retry_exhaustion_timeout clientW "key" "secret" rfl rfl paramsW
    (fun _ => AttemptOutcome.timeout) (fun i => (i : ℤ)) [] (fun _ _ => rfl)

theorem sendLoop_retries_only_transport (c : SignedClient) (orig : PyDict)
    (outcomes : ℕ → AttemptOutcome) (times : ℕ → ℤ) :
    ∀ (remaining attempt j : ℕ),
      j + 1 < ((sendLoop c orig outcomes times attempt remaining).2).length →
      outcomes (attempt + j) = AttemptOutcome.timeout ∨
        ∃ b m, outcomes (attempt + j) = AttemptOutcome.reqError b m := by
  intro remaining
  induction remaining with
  | zero =>
    intro attempt j h
    simp [sendLoop] at h
  | succ r ih =>
    intro attempt j h
    cases ho : outcomes attempt with
    | ok d =>
      simp only [sendLoop, ho] at h
      simp at h
    | timeout =>
      simp only [sendLoop, ho] at h
      by_cases hr : r = 0
      · rw [if_pos hr] at h
        simp at h
      · rw [if_neg hr] at h
        simp only [List.length_cons] at h
        cases j with
        | zero => exact Or.inl (by simpa using ho)
        | succ j' =>
          have hj : j' + 1 < ((sendLoop c orig outcomes times (attempt + 1) r).2).length := by
            omega
          have hres := ih (attempt + 1) j' hj
          have harith : attempt + 1 + j' = attempt + (j' + 1) := by omega
          rwa [harith] at hres
    | reqError b m =>
      simp only [sendLoop, ho] at h
      by_cases hr : r = 0
      · rw [if_pos hr] at h
        simp at h
      · rw [if_neg hr] at h
        simp only [List.length_cons] at h
        cases j with
        | zero => exact Or.inr ⟨b, m, by simpa using ho⟩
        | succ j' =>
          have hj : j' + 1 < ((sendLoop c orig outcomes times (attempt + 1) r).2).length := by
            omega
          have hres := ih (attempt + 1) j' hj
          have harith : attempt + 1 + j' = attempt + (j' + 1) := by omega
          rwa [harith] at hres
    | otherError m =>
      simp only [sendLoop, ho] at h
      simp at h

/-- **C6** (confirmed).  A signed request whose first attempt reaches a
decodable 2xx response — in particular one carrying an embedded exchange
error code — returns that decoded payload as data after exactly one
attempt, without any retry, without raising, and without touching the
ledger; and in any run of the client, every attempt that was followed by a
retry observed a transport failure (timeout or request/network exception),
so only transport failures consume retry attempts. -/
theorem exchange_rejection_passthrough (c : SignedClient) (kk ks : String)
    (hk : c.apiKey = some kk) (hs : c.apiSecret = some ks)
    (params : PyDict) (outcomes : ℕ → AttemptOutcome) (times : ℕ → ℤ)
    (st : Positions) (d : PyDict)
    (h0 : outcomes 0 = AttemptOutcome.ok d) :
    (sendSignedRequest c params outcomes times st).1 = d ∧
    (sendSignedRequest c params outcomes times st).2.1
      = [attemptParams c (withRecv params) (times 0)] ∧
    (sendSignedRequest c params outcomes times st).2.2 = st ∧
    (∀ (outcomes' : ℕ → AttemptOutcome) (st' : Positions) (j : ℕ),
      j + 1 < (sendSignedRequest c params outcomes' times st').2.1.length →
      outcomes' j = AttemptOutcome.timeout ∨
        ∃ b m, outcomes' j = AttemptOutcome.reqError b m) := by
  refine ⟨?_, ?_, ?_, ?_⟩
  · simp [sendSignedRequest, hk, hs, sendLoop, h0]
  · simp [sendSignedRequest, hk, hs, sendLoop, h0]
  · simp [sendSignedRequest, hk, hs]
  · intro outcomes' st' j h
    have hlen : (sendSignedRequest c params outcomes' times st').2.1
        = (sendLoop c (withRecv params) outcomes' times 0 3).2 := by
      simp [sendSignedRequest, hk, hs]
    rw [hlen] at h
    simpa using sendLoop_retries_only_transport c (withRecv params) outcomes' times 3 0 j h

/-- An exchange-level rejection payload: decodable, with an embedded
error code. -/
def rejectionPayload : PyDict :=
  [("code", PyVal.n (-2019)), ("msg", PyVal.s "Margin is insufficient.")]

/-- Witness for C6: an error-coded payload delivered with the HTTP
response is returned as data after one attempt, with the ledger
unchanged. -/
theorem exchange_rejection_passthrough_witness :
    (sendSignedRequest clientW paramsW (fun _ => AttemptOutcome.ok rejectionPayload)
        (fun _ => 0) []).1 = rejectionPayload ∧
    (sendSignedRequest clientW paramsW (fun _ => AttemptOutcome.ok rejectionPayload)
        (fun _ => 0) []).2.1 = [attemptParams clientW (withRecv paramsW) 0] ∧
    (sendSignedRequest clientW paramsW (fun _ => AttemptOutcome.ok rejectionPayload)
        (fun _ => 0) []).2.2 = [] := by
  have h := exchange_rejection_passthrough clientW "key" "secret" rfl rfl paramsW
    (fun _ => AttemptOutcome.ok rejectionPayload) (fun _ => 0) [] rejectionPayload rfl
  exact ⟨h.1, h.2.1, h.2.2.1⟩
